import Mathlib

/-!
Verification of `ascii_process_viewer.py`.

Python strings are modelled as `List Char`, Python ints as `ℤ`/`ℕ`, and
Python floats as exact rationals `ℚ`; Python's built-in `round` is
round-half-to-even, modelled by `roundHalfEven` below.
-/

-- ----------------------------- Configuration -----------------------------

def MIN_BAR_WIDTH : ℤ := 10
def MAX_NAME_LEN : ℕ := 25

-- ----------------------------- Utility functions ------------------------

/-- Source `clamp(v, a, b) = max(a, min(b, v))`. -/
def clamp (v a b : ℚ) : ℚ := max a (min b v)

/-- Python's built-in `round`: round half to even (banker's rounding). -/
def roundHalfEven (q : ℚ) : ℤ :=
  if q - ⌊q⌋ < 1/2 then ⌊q⌋
  else if 1/2 < q - ⌊q⌋ then ⌊q⌋ + 1
  else if ⌊q⌋ % 2 = 0 then ⌊q⌋ else ⌊q⌋ + 1

/-- Source `proportion_bar(value, width)`:
`value = clamp(value, 0.0, 100.0)`, `filled = int(round((value / 100.0) * width))`,
`empty = width - filled`, returning `'[' + '#'*filled + ' '*empty + ']'`.
Python `'#' * n` is empty for `n ≤ 0`, hence `Int.toNat`. -/
def proportion_bar (value : ℚ) (width : ℤ) : List Char :=
  let v := clamp value 0 100
  let filled := roundHalfEven (v / 100 * width)
  let empty := width - filled
  ['['] ++ List.replicate filled.toNat '#' ++ List.replicate empty.toNat ' ' ++ [']']

/-- The fill count actually computed by `proportion_bar`. -/
def filledCells (value : ℚ) (width : ℤ) : ℤ :=
  roundHalfEven (clamp value 0 100 / 100 * width)

-- ----------------------------- Layout (from `draw`) ----------------------

def pid_w : ℕ := 6
def cpu_pct_w : ℕ := 6
def mem_pct_w : ℕ := 6
def name_w : ℕ := 1 + MAX_NAME_LEN

/-- Source: `reserved = pid_w + name_w + cpu_pct_w + mem_pct_w + 10` (spacing). -/
def reserved : ℤ := (pid_w : ℤ) + name_w + cpu_pct_w + mem_pct_w + 10

/-- Source: `bar_space = max(MIN_BAR_WIDTH, term_width - reserved)`. -/
def bar_space (term_width : ℤ) : ℤ := max MIN_BAR_WIDTH (term_width - reserved)

/-- Source: `cpu_bar_w = bar_space // 2`.  Python `//` is floor division;
Lean's `/` on `ℤ` is `Int.ediv`, which agrees with floor division whenever
the divisor is positive, as it is here. -/
def cpu_bar_w (term_width : ℤ) : ℤ := bar_space term_width / 2

/-- Source: `mem_bar_w = bar_space - cpu_bar_w`. -/
def mem_bar_w (term_width : ℤ) : ℤ := bar_space term_width - cpu_bar_w term_width

-- ----------------------------- Text fields ------------------------------

/-- Python format `{s:<w}`: left-justify, padding with spaces to width `w`
(a longer string is left unchanged). -/
def padRight (s : List Char) (w : ℕ) : List Char := s ++ List.replicate (w - s.length) ' '

/-- Python format `{s:>w}`: right-justify, padding with spaces to width `w`. -/
def padLeft (s : List Char) (w : ℕ) : List Char := List.replicate (w - s.length) ' ' ++ s

/-- Python `str(n)` for an integer. -/
def intStr (n : ℤ) : List Char :=
  (if n < 0 then ['-'] else []) ++ Nat.toDigits 10 n.natAbs

/-- Python fixed-point format `{q:.1f}` on the exact rational value:
round `10·q` half to even, then print with one digit after the point. -/
def formatFixed1 (q : ℚ) : List Char :=
  let n := roundHalfEven (10 * q)
  (if n < 0 then ['-'] else []) ++
    Nat.toDigits 10 (n.natAbs / 10) ++ ['.'] ++ Nat.toDigits 10 (n.natAbs % 10)

/-- The f-string in `draw` separates consecutive fields by one space. -/
def joinFields : List (List Char) → List Char
  | [] => []
  | [f] => f
  | f :: fs => f ++ ' ' :: joinFields fs

/-- Character offset at which field `i` starts within `joinFields fs`. -/
def fieldOffset (fs : List (List Char)) (i : ℕ) : ℕ :=
  ((fs.take i).map List.length).sum + i

/-- Width in characters of field `i`. -/
def fieldWidth (fs : List (List Char)) (i : ℕ) : ℕ := (fs.getD i []).length

-- ----------------------------- Data model -------------------------------

/-- One entry of the dict list built by `fetch_processes`:
`{'pid': ..., 'name': ..., 'cpu': ..., 'mem': ...}`. -/
structure ProcRecord where
  pid : ℤ
  name : List Char
  cpu : ℚ
  mem : ℚ
deriving DecidableEq

-- ----------------------------- Renderer (from `draw`) --------------------

/-- The column header row of `draw`, as its six space-separated fields. -/
def headerFields (c m : ℤ) : List (List Char) :=
  [padRight ['P', 'I', 'D'] pid_w,
   padRight ['N', 'A', 'M', 'E'] name_w,
   padLeft ['C', 'P', 'U', '%'] cpu_pct_w,
   padRight ['C', 'P', 'U', ' ', 'B', 'A', 'R'] (c + 2).toNat,
   padLeft ['M', 'E', 'M', '%'] mem_pct_w,
   padRight ['M', 'E', 'M', ' ', 'B', 'A', 'R'] (m + 2).toNat]

/-- One data row of `draw`, as its six space-separated fields, with
`pid = str(p['pid'])[:pid_w]`, `name = p['name'][:MAX_NAME_LEN]`,
`cpu_bar = proportion_bar(cpu, cpu_bar_w - 2)`, `mem_bar = proportion_bar(mem, mem_bar_w - 2)`.
The literal `%` printed after each percentage belongs to the percent field. -/
def rowFields (c m : ℤ) (p : ProcRecord) : List (List Char) :=
  [padRight ((intStr p.pid).take pid_w) pid_w,
   padRight (p.name.take MAX_NAME_LEN) name_w,
   padLeft (formatFixed1 p.cpu) cpu_pct_w ++ ['%'],
   proportion_bar p.cpu (c - 2),
   padLeft (formatFixed1 p.mem) mem_pct_w ++ ['%'],
   proportion_bar p.mem (m - 2)]

def headerLine (tw : ℤ) : List Char :=
  joinFields (headerFields (cpu_bar_w tw) (mem_bar_w tw))

def rowLine (tw : ℤ) (p : ProcRecord) : List Char :=
  joinFields (rowFields (cpu_bar_w tw) (mem_bar_w tw) p)

/-- Source `procs[:top_n]` in the row loop of `draw`. -/
def drawnRows (procs : List ProcRecord) (top_n : ℕ) : List ProcRecord :=
  procs.take top_n

/-- Source `min(top_n, len(procs))` in the footer of `draw`. -/
def footerShownCount (procs : List ProcRecord) (top_n : ℕ) : ℕ :=
  min top_n procs.length

-- ----------------------------- Ranker (from `main`) ----------------------

/-- The ordering realised by `procs.sort(key=lambda x: (x['cpu'], x['mem']), reverse=True)`:
record `a` may stay before `b` exactly when the key of `b` is lexicographically
≤ the key of `a`.  Python's `list.sort` is a stable sort, and a stable sort
for a total preorder has a unique result, so the stable `List.mergeSort` with
this relation computes the same list. -/
def rankLe (a b : ProcRecord) : Bool :=
  decide (b.cpu < a.cpu ∨ (b.cpu = a.cpu ∧ b.mem ≤ a.mem))

def rank (procs : List ProcRecord) : List ProcRecord :=
  procs.mergeSort rankLe

-- ------------------------ ProcessSampler (from `fetch_processes`) --------

/-- The two psutil exceptions that `fetch_processes` catches:
`psutil.NoSuchProcess` and `psutil.AccessDenied`. -/
inductive PsutilErr where
  | noSuchProcess
  | accessDenied
deriving DecidableEq

/-- One process as seen through `psutil.process_iter(['pid', 'name'])`:
its prefetched `info` (pid and possibly-missing name) and the outcome of the
per-process metric query `p.cpu_percent(...)` / `p.memory_percent()`, which
either yields the two percentages or raises one of the two transient errors. -/
structure ProcEntry where
  pid : ℤ
  name : Option (List Char)
  query : Except PsutilErr (ℚ × ℚ)

/-- The record appended for an entry whose metric query succeeded:
`{'pid': info.get('pid'), 'name': (info.get('name') or '')[:MAX_NAME_LEN], 'cpu': cpu, 'mem': mem}`. -/
def entryRecord (p : ProcEntry) (cpu mem : ℚ) : ProcRecord :=
  ⟨p.pid, (p.name.getD []).take MAX_NAME_LEN, cpu, mem⟩

/-- Source `fetch_processes`: iterate over the process table, appending a
record per process and silently skipping (`continue`) any process whose
metric query raises `NoSuchProcess` or `AccessDenied`. -/
def fetch_processes (table : List ProcEntry) : List ProcRecord :=
  table.filterMap fun p =>
    match p.query with
    | .ok (cpu, mem) => some (entryRecord p cpu mem)
    | .error _ => none

-- ----------------------------- Concrete samples --------------------------

/-- The record `(cpu=10, mem=5)` of the ranking example. -/
def recLowCpu : ProcRecord := ⟨1, ['a'], 10, 5⟩

/-- The record `(cpu=50, mem=1)` of the ranking example. -/
def recHighCpuLowMem : ProcRecord := ⟨2, ['b'], 50, 1⟩

/-- The record `(cpu=50, mem=99)` of the ranking example. -/
def recHighCpuHighMem : ProcRecord := ⟨3, ['c'], 50, 99⟩

/-- Two records with identical keys, for the stability witness. -/
def recTieFirst : ProcRecord := ⟨4, ['d'], 50, 5⟩

def recTieSecond : ProcRecord := ⟨5, ['e'], 50, 5⟩

def recTieOther : ProcRecord := ⟨6, ['f'], 10, 1⟩

/-- A sample record for the renderer: pid 1, name "init", cpu 50%, mem 25%. -/
def recScreen : ProcRecord := ⟨1, ['i', 'n', 'i', 't'], 50, 25⟩

/-- A process entry whose metric query succeeds. -/
def entryOk : ProcEntry := ⟨3, some ['o', 'k'], .ok (50, 5)⟩

/-- A process entry that vanished between enumeration and query. -/
def entryGone : ProcEntry := ⟨9, some ['g', 'o', 'n', 'e'], .error .noSuchProcess⟩

-- ======================== Supporting lemmas ==============================

lemma floor_le_roundHalfEven (q : ℚ) : ⌊q⌋ ≤ roundHalfEven q := by
  unfold roundHalfEven; split_ifs <;> omega

lemma roundHalfEven_le_floor_add_one (q : ℚ) : roundHalfEven q ≤ ⌊q⌋ + 1 := by
  unfold roundHalfEven; split_ifs <;> omega

lemma roundHalfEven_intCast (n : ℤ) : roundHalfEven (n : ℚ) = n := by
  unfold roundHalfEven
  rw [Int.floor_intCast]
  have h : (n : ℚ) - n = 0 := by ring
  rw [h]
  norm_num

lemma roundHalfEven_mono {q r : ℚ} (h : q ≤ r) : roundHalfEven q ≤ roundHalfEven r := by
  have hf : ⌊q⌋ ≤ ⌊r⌋ := Int.floor_le_floor h
  rcases lt_or_eq_of_le hf with hlt | heq
  · calc roundHalfEven q ≤ ⌊q⌋ + 1 := roundHalfEven_le_floor_add_one q
      _ ≤ ⌊r⌋ := by omega
      _ ≤ roundHalfEven r := floor_le_roundHalfEven r
  · unfold roundHalfEven
    rw [← heq]
    split_ifs <;> first | omega | linarith

lemma roundHalfEven_zero : roundHalfEven (0 : ℚ) = 0 := by
  simpa using roundHalfEven_intCast 0

lemma roundHalfEven_nonneg {q : ℚ} (h : 0 ≤ q) : 0 ≤ roundHalfEven q := by
  have := roundHalfEven_mono h
  rw [roundHalfEven_zero] at this
  exact this

lemma roundHalfEven_le_int {q : ℚ} {w : ℤ} (h : q ≤ (w : ℚ)) : roundHalfEven q ≤ w := by
  have := roundHalfEven_mono h
  rwa [roundHalfEven_intCast] at this

lemma clamp_nonneg (v : ℚ) : 0 ≤ clamp v 0 100 := le_max_left _ _

lemma clamp_le_hundred (v : ℚ) : clamp v 0 100 ≤ 100 :=
  max_le (by norm_num) (min_le_left _ _)

lemma clamp_mono {v w : ℚ} (h : v ≤ w) : clamp v 0 100 ≤ clamp w 0 100 :=
  max_le_max le_rfl (min_le_min le_rfl h)

lemma filledCells_nonneg (value : ℚ) {width : ℤ} (hw : 0 ≤ width) :
    0 ≤ filledCells value width := by
  have h0 : (0 : ℚ) ≤ clamp value 0 100 := clamp_nonneg value
  have hw' : (0 : ℚ) ≤ (width : ℚ) := by exact_mod_cast hw
  have : (0 : ℚ) ≤ clamp value 0 100 / 100 * width := by positivity
  exact roundHalfEven_nonneg this

lemma filledCells_le_width (value : ℚ) {width : ℤ} (hw : 0 ≤ width) :
    filledCells value width ≤ width := by
  have h100 : clamp value 0 100 ≤ 100 := clamp_le_hundred value
  have hw' : (0 : ℚ) ≤ (width : ℚ) := by exact_mod_cast hw
  have hdiv : clamp value 0 100 / 100 ≤ 1 := by
    rw [div_le_one (by norm_num : (0:ℚ) < 100)]
    exact h100
  have hle : clamp value 0 100 / 100 * width ≤ (width : ℚ) := by
    calc clamp value 0 100 / 100 * width ≤ 1 * width :=
          mul_le_mul_of_nonneg_right hdiv hw'
      _ = (width : ℚ) := one_mul _
  exact roundHalfEven_le_int hle

lemma filledCells_mono {v w : ℚ} (width : ℤ) (hw : 0 ≤ width) (h : v ≤ w) :
    filledCells v width ≤ filledCells w width := by
  have hw' : (0 : ℚ) ≤ (width : ℚ) := by exact_mod_cast hw
  have hc : clamp v 0 100 ≤ clamp w 0 100 := clamp_mono h
  have : clamp v 0 100 / 100 * width ≤ clamp w 0 100 / 100 * width := by
    apply mul_le_mul_of_nonneg_right _ hw'
    exact div_le_div_of_nonneg_right hc (by norm_num)
  exact roundHalfEven_mono this

lemma proportion_bar_length (value : ℚ) {width : ℤ} (hw : 0 ≤ width) :
    (proportion_bar value width).length = width.toNat + 2 := by
  have h0 := filledCells_nonneg value hw
  have h1 := filledCells_le_width value hw
  unfold filledCells at h0 h1
  simp only [proportion_bar, List.length_append, List.length_replicate,
    List.length_cons, List.length_nil]
  omega

lemma proportion_bar_count (value : ℚ) (width : ℤ) :
    (proportion_bar value width).count '#' = (filledCells value width).toNat := by
  simp [proportion_bar, filledCells, List.count_append, List.count_replicate,
    List.count_cons, List.count_nil]

lemma bar_space_ge_min (tw : ℤ) : MIN_BAR_WIDTH ≤ bar_space tw := le_max_left _ _

lemma bar_space_eq_of_wide {tw : ℤ} (h : 64 ≤ tw) : bar_space tw = tw - 54 := by
  unfold bar_space reserved MIN_BAR_WIDTH pid_w name_w cpu_pct_w mem_pct_w MAX_NAME_LEN
  omega

lemma cpu_bar_w_ge (tw : ℤ) : 5 ≤ cpu_bar_w tw := by
  have := bar_space_ge_min tw
  unfold cpu_bar_w MIN_BAR_WIDTH at *
  omega

lemma mem_bar_w_ge (tw : ℤ) : 5 ≤ mem_bar_w tw := by
  have := bar_space_ge_min tw
  unfold mem_bar_w cpu_bar_w MIN_BAR_WIDTH at *
  omega

lemma bar_w_sum (tw : ℤ) : cpu_bar_w tw + mem_bar_w tw = bar_space tw := by
  unfold mem_bar_w; ring

lemma padRight_length (s : List Char) (w : ℕ) : (padRight s w).length = max s.length w := by
  simp only [padRight, List.length_append, List.length_replicate]
  omega

lemma padLeft_length (s : List Char) (w : ℕ) : (padLeft s w).length = max s.length w := by
  simp only [padLeft, List.length_append, List.length_replicate]
  omega

lemma padRight_length_of_le {s : List Char} {w : ℕ} (h : s.length ≤ w) :
    (padRight s w).length = w := by
  rw [padRight_length]; omega

lemma padLeft_length_of_le {s : List Char} {w : ℕ} (h : s.length ≤ w) :
    (padLeft s w).length = w := by
  rw [padLeft_length]; omega

lemma joinFields_cons_cons (f g : List Char) (fs : List (List Char)) :
    joinFields (f :: g :: fs) = f ++ ' ' :: joinFields (g :: fs) := rfl

/-- `fieldOffset`/`fieldWidth` really locate field `i` inside the joined line. -/
lemma joinFields_extract :
    ∀ (fs : List (List Char)) (i : ℕ), i < fs.length →
      ((joinFields fs).drop (fieldOffset fs i)).take (fieldWidth fs i) = fs.getD i []
  | [], i, h => by simp at h
  | [f], 0, _ => by
      simp [joinFields, fieldOffset, fieldWidth]
  | [f], i + 1, h => by simp at h
  | f :: g :: fs, 0, _ => by
      simp only [joinFields_cons_cons, fieldOffset, fieldWidth, List.take_zero,
        List.map_nil, List.sum_nil, Nat.zero_add, List.drop_zero, List.getD_cons_zero]
      exact List.take_left f (' ' :: joinFields (g :: fs))
  | f :: g :: fs, i + 1, h => by
      have ih := joinFields_extract (g :: fs) i (by simpa using h)
      have hoff : fieldOffset (f :: g :: fs) (i + 1)
          = (f.length + 1) + fieldOffset (g :: fs) i := by
        simp [fieldOffset, List.take_succ_cons]
        omega
      have hw : fieldWidth (f :: g :: fs) (i + 1) = fieldWidth (g :: fs) i := by
        simp [fieldWidth]
      rw [hoff, hw, joinFields_cons_cons]
      have hsplit : f ++ ' ' :: joinFields (g :: fs)
          = (f ++ [' ']) ++ joinFields (g :: fs) := by simp
      rw [hsplit]
      have hlen : (f ++ [' ']).length = f.length + 1 := by simp
      rw [show (f.length + 1) + fieldOffset (g :: fs) i
            = (f ++ [' ']).length + fieldOffset (g :: fs) i by rw [hlen],
        List.drop_append]
      simpa using ih

lemma joinFields_length_six (f0 f1 f2 f3 f4 f5 : List Char) :
    (joinFields [f0, f1, f2, f3, f4, f5]).length
      = f0.length + f1.length + f2.length + f3.length + f4.length + f5.length + 5 := by
  simp [joinFields]
  omega

lemma rankLe_trans : ∀ (a b c : ProcRecord), rankLe a b → rankLe b c → rankLe a c := by
  intro a b c hab hbc
  simp only [rankLe, decide_eq_true_eq] at *
  rcases hab with h1 | ⟨h1, h1m⟩ <;> rcases hbc with h2 | ⟨h2, h2m⟩
  · exact Or.inl (lt_trans h2 h1)
  · exact Or.inl (h2.trans_lt h1)
  · exact Or.inl (h2.trans_eq h1)
  · exact Or.inr ⟨h2.trans h1, le_trans h2m h1m⟩

lemma rankLe_total : ∀ (a b : ProcRecord), rankLe a b || rankLe b a := by
  intro a b
  simp only [rankLe, Bool.or_eq_true, decide_eq_true_eq]
  rcases lt_trichotomy b.cpu a.cpu with h | h | h
  · exact Or.inl (Or.inl h)
  · rcases le_total b.mem a.mem with hm | hm
    · exact Or.inl (Or.inr ⟨h, hm⟩)
    · exact Or.inr (Or.inr ⟨h.symm, hm⟩)
  · exact Or.inr (Or.inl h)

unseal List.merge List.mergeSort in
lemma rank_example :
    rank [recLowCpu, recHighCpuLowMem, recHighCpuHighMem]
      = [recHighCpuHighMem, recHighCpuLowMem, recLowCpu] := rfl

lemma fieldOffset_eq (fs : List (List Char)) (i : ℕ) :
    fieldOffset fs i = ((fs.map List.length).take i).sum + i := by
  rw [fieldOffset, List.map_take]

lemma headerFields_lengths {c m : ℤ} (hc : 5 ≤ c) (hm : 5 ≤ m) :
    (headerFields c m).map List.length = [6, 26, 6, (c + 2).toNat, 6, (m + 2).toNat] := by
  simp [headerFields, padRight_length, padLeft_length, pid_w, name_w, cpu_pct_w,
    mem_pct_w, MAX_NAME_LEN]
  omega

lemma row_f0_length (p : ProcRecord) :
    (padRight ((intStr p.pid).take pid_w) pid_w).length = 6 := by
  apply padRight_length_of_le
  rw [List.length_take]
  exact min_le_left _ _

lemma row_f1_length (p : ProcRecord) :
    (padRight (p.name.take MAX_NAME_LEN) name_w).length = 26 := by
  apply padRight_length_of_le
  rw [List.length_take]
  have := min_le_left MAX_NAME_LEN p.name.length
  unfold MAX_NAME_LEN at this
  unfold name_w MAX_NAME_LEN
  omega

lemma row_cpu_pct_length {q : ℚ} (h : (formatFixed1 q).length ≤ 6) :
    (padLeft (formatFixed1 q) cpu_pct_w ++ ['%']).length = 7 := by
  unfold cpu_pct_w
  rw [List.length_append, padLeft_length_of_le h]
  rfl

lemma row_mem_pct_length {q : ℚ} (h : (formatFixed1 q).length ≤ 6) :
    (padLeft (formatFixed1 q) mem_pct_w ++ ['%']).length = 7 := by
  unfold mem_pct_w
  rw [List.length_append, padLeft_length_of_le h]
  rfl

lemma row_bar_length (v : ℚ) {c : ℤ} (hc : 5 ≤ c) :
    (proportion_bar v (c - 2)).length = c.toNat := by
  rw [proportion_bar_length v (by omega : (0:ℤ) ≤ c - 2)]
  omega

lemma rowFields_lengths (p : ProcRecord) {c m : ℤ} (hc : 5 ≤ c) (hm : 5 ≤ m)
    (h1 : (formatFixed1 p.cpu).length ≤ 6) (h2 : (formatFixed1 p.mem).length ≤ 6) :
    (rowFields c m p).map List.length = [6, 26, 7, c.toNat, 7, m.toNat] := by
  simp only [rowFields, List.map_cons, List.map_nil, row_f0_length, row_f1_length,
    row_cpu_pct_length h1, row_mem_pct_length h2, row_bar_length p.cpu hc,
    row_bar_length p.mem hm]

lemma formatFixed1_fifty : formatFixed1 (50 : ℚ) = ['5', '0', '.', '0'] := by
  simp only [formatFixed1]
  rw [show (10 * (50:ℚ)) = ((500:ℤ):ℚ) by norm_num, roundHalfEven_intCast]
  rfl

lemma formatFixed1_twentyfive : formatFixed1 (25 : ℚ) = ['2', '5', '.', '0'] := by
  simp only [formatFixed1]
  rw [show (10 * (25:ℚ)) = ((250:ℤ):ℚ) by norm_num, roundHalfEven_intCast]
  rfl

lemma recScreen_cpu_fmt : (formatFixed1 recScreen.cpu).length ≤ 6 := by
  rw [show recScreen.cpu = (50:ℚ) from rfl, formatFixed1_fifty]
  norm_num

lemma recScreen_mem_fmt : (formatFixed1 recScreen.mem).length ≤ 6 := by
  rw [show recScreen.mem = (25:ℚ) from rfl, formatFixed1_twentyfive]
  norm_num

lemma clamp_clamp (v : ℚ) : clamp (clamp v 0 100) 0 100 = clamp v 0 100 := by
  show max 0 (min 100 (clamp v 0 100)) = clamp v 0 100
  rw [min_eq_right (clamp_le_hundred v), max_eq_right (clamp_nonneg v)]

lemma filledCells_zero (w : ℤ) : filledCells 0 w = 0 := by
  have hc : clamp 0 0 100 = (0 : ℚ) := by unfold clamp; norm_num
  unfold filledCells
  rw [hc, show (0 : ℚ) / 100 * w = 0 by ring]
  exact roundHalfEven_zero

lemma filledCells_full {v : ℚ} (w : ℤ) (h : 100 ≤ v) : filledCells v w = w := by
  have hc : clamp v 0 100 = 100 := by
    unfold clamp
    rw [min_eq_left h]
    norm_num
  unfold filledCells
  rw [hc, show (100 : ℚ) / 100 * w = ((w : ℤ) : ℚ) by ring]
  exact roundHalfEven_intCast w

-- ======================== Claims =========================================

/-- C1 (counterexample): at terminal width 20 (which is ≥ 1 and below the
reserved width plus twice the minimum), the CPU bar width computed by `draw`
is 5, strictly below the configured minimum `MIN_BAR_WIDTH = 10`, refuting
the claim that each bar width clamps to the configured minimum. -/
theorem bar_width_min_cex :
    (1 : ℤ) ≤ 20 ∧ ¬ (MIN_BAR_WIDTH ≤ cpu_bar_w 20 ∧ MIN_BAR_WIDTH ≤ mem_bar_w 20) := by
  decide

/-- C1 (amended): for every terminal width ≥ 1, the layout in `draw` clamps
the combined bar space to `MIN_BAR_WIDTH`, so each bar width is at least
`⌊MIN_BAR_WIDTH/2⌋ = 5` (hence never negative), their sum is at least
`MIN_BAR_WIDTH`, and when the terminal is too narrow
(`terminal_width ≤ reserved + MIN_BAR_WIDTH = 64`) each bar width is
exactly 5. -/
theorem bar_widths_clamp (tw : ℤ) (h : 1 ≤ tw) :
    5 ≤ cpu_bar_w tw ∧ 5 ≤ mem_bar_w tw ∧
    MIN_BAR_WIDTH ≤ cpu_bar_w tw + mem_bar_w tw ∧
    (tw ≤ reserved + MIN_BAR_WIDTH → cpu_bar_w tw = 5 ∧ mem_bar_w tw = 5) := by
  unfold mem_bar_w cpu_bar_w bar_space reserved MIN_BAR_WIDTH pid_w name_w
    cpu_pct_w mem_pct_w MAX_NAME_LEN
  omega

theorem bar_widths_clamp_witness :
    5 ≤ cpu_bar_w 20 ∧ 5 ≤ mem_bar_w 20 ∧
    MIN_BAR_WIDTH ≤ cpu_bar_w 20 + mem_bar_w 20 ∧
    cpu_bar_w 20 = 5 ∧ mem_bar_w 20 = 5 :=
  ⟨(bar_widths_clamp 20 (by norm_num)).1, (bar_widths_clamp 20 (by norm_num)).2.1,
   (bar_widths_clamp 20 (by norm_num)).2.2.1,
   (bar_widths_clamp 20 (by norm_num)).2.2.2 (by decide)⟩

/-- C2: for every terminal width ≥ 74 (= fixed columns + spacing + twice the
minimum bar width), the two bar widths sum to at most
`terminal_width - reserved`, each is at least `MIN_BAR_WIDTH`,
`cpu_bar_w` is the floor of half of `bar_space`, and `mem_bar_w` receives
the remainder `bar_space - cpu_bar_w` (so any odd remainder goes to the
memory bar). -/
theorem layout_wide (tw : ℤ) (h : 74 ≤ tw) :
    cpu_bar_w tw + mem_bar_w tw ≤ tw - reserved ∧
    MIN_BAR_WIDTH ≤ cpu_bar_w tw ∧ MIN_BAR_WIDTH ≤ mem_bar_w tw ∧
    2 * cpu_bar_w tw ≤ bar_space tw ∧ bar_space tw < 2 * (cpu_bar_w tw + 1) ∧
    mem_bar_w tw = bar_space tw - cpu_bar_w tw := by
  unfold mem_bar_w cpu_bar_w bar_space reserved MIN_BAR_WIDTH pid_w name_w
    cpu_pct_w mem_pct_w MAX_NAME_LEN
  omega

theorem layout_wide_witness :
    cpu_bar_w 80 + mem_bar_w 80 ≤ 80 - reserved ∧
    MIN_BAR_WIDTH ≤ cpu_bar_w 80 ∧ MIN_BAR_WIDTH ≤ mem_bar_w 80 ∧
    2 * cpu_bar_w 80 ≤ bar_space 80 ∧ bar_space 80 < 2 * (cpu_bar_w 80 + 1) ∧
    mem_bar_w 80 = bar_space 80 - cpu_bar_w 80 :=
  layout_wide 80 (by norm_num)

/-- C4: `rank` orders every record list by descending `cpu`, breaking ties by
descending `mem`; on the concrete input `[(10,5), (50,1), (50,99)]` it
produces `[(50,99), (50,1), (10,5)]`. -/
theorem rank_sorted :
    (∀ procs : List ProcRecord,
        (rank procs).Pairwise (fun a b => b.cpu < a.cpu ∨ (b.cpu = a.cpu ∧ b.mem ≤ a.mem)))
    ∧ rank [recLowCpu, recHighCpuLowMem, recHighCpuHighMem]
        = [recHighCpuHighMem, recHighCpuLowMem, recLowCpu] := by
  constructor
  · intro procs
    have h := List.sorted_mergeSort rankLe_trans rankLe_total procs
    exact h.imp fun hab => by simpa [rankLe] using hab
  · exact rank_example

/-- C5: the ranking is stable: two records with exactly equal `cpu` and
exactly equal `mem` that occur in this order in the input still occur in
this order in the ranked output. -/
theorem rank_stable (procs : List ProcRecord) (a b : ProcRecord)
    (hcpu : a.cpu = b.cpu) (hmem : a.mem = b.mem)
    (h : List.Sublist [a, b] procs) :
    List.Sublist [a, b] (rank procs) := by
  apply List.pair_sublist_mergeSort rankLe_trans rankLe_total _ h
  simp only [rankLe, decide_eq_true_eq]
  exact Or.inr ⟨hcpu.symm, hmem.ge⟩

theorem rank_stable_witness :
    List.Sublist [recTieFirst, recTieSecond]
      (rank [recTieFirst, recTieSecond, recTieOther]) :=
  rank_stable [recTieFirst, recTieSecond, recTieOther] recTieFirst recTieSecond
    rfl rfl (List.sublist_append_left [recTieFirst, recTieSecond] [recTieOther])

/-- C8: `fetch_processes` is a total function that (i) silently omits any
process whose metric query raises a transient error, leaving the rest of the
output unchanged, (ii) returns a record for every process whose query
succeeds, and (iii) only ever returns records whose pid is present in the
process table it was given — so a process absent from the next tick's table
cannot appear in the next tick's output. -/
theorem fetch_processes_skips :
    (∀ (t1 t2 : List ProcEntry) (p : ProcEntry) (e : PsutilErr),
        p.query = .error e →
        fetch_processes (t1 ++ p :: t2) = fetch_processes (t1 ++ t2)) ∧
    (∀ (table : List ProcEntry) (p : ProcEntry) (cpu mem : ℚ),
        p ∈ table → p.query = .ok (cpu, mem) →
        entryRecord p cpu mem ∈ fetch_processes table) ∧
    (∀ (table : List ProcEntry) (r : ProcRecord),
        r ∈ fetch_processes table → r.pid ∈ table.map ProcEntry.pid) := by
  refine ⟨?_, ?_, ?_⟩
  · intro t1 t2 p e he
    simp [fetch_processes, List.filterMap_append, List.filterMap_cons, he]
  · intro table p cpu mem hp hq
    refine List.mem_filterMap.mpr ⟨p, hp, ?_⟩
    rw [hq]
  · intro table r hr
    obtain ⟨p, hp, heq⟩ := List.mem_filterMap.mp hr
    refine List.mem_map.mpr ⟨p, hp, ?_⟩
    rcases hq : p.query with e | ⟨cpu, mem⟩
    · rw [hq] at heq; simp at heq
    · rw [hq] at heq
      simp only [Option.some.injEq] at heq
      rw [← heq]
      rfl

theorem fetch_processes_skips_witness :
    fetch_processes ([] ++ entryGone :: []) = fetch_processes ([] ++ []) ∧
    entryRecord entryOk 50 5 ∈ fetch_processes [entryOk] ∧
    (entryRecord entryOk 50 5).pid ∈ [entryOk].map ProcEntry.pid :=
  ⟨fetch_processes_skips.1 [] [] entryGone .noSuchProcess rfl,
   fetch_processes_skips.2.1 [entryOk] entryOk 50 5 (by simp) rfl,
   fetch_processes_skips.2.2 [entryOk] (entryRecord entryOk 50 5)
     (fetch_processes_skips.2.1 [entryOk] entryOk 50 5 (by simp) rfl)⟩

/-- C9: when `top_n` exceeds the number of records, `draw` renders exactly
one row per available record (all of them, no padding) and the footer
reports `min(top_n, record_count)`, which then equals the record count. -/
theorem drawn_rows_top_n_exceeds (procs : List ProcRecord) (top_n : ℕ)
    (h1 : 1 ≤ top_n) (h2 : procs.length < top_n) :
    drawnRows procs top_n = procs ∧
    (drawnRows procs top_n).length = procs.length ∧
    footerShownCount procs top_n = min top_n procs.length ∧
    footerShownCount procs top_n = procs.length := by
  refine ⟨?_, ?_, rfl, ?_⟩
  · exact List.take_of_length_le (le_of_lt h2)
  · rw [drawnRows, List.length_take]; omega
  · unfold footerShownCount; omega

theorem drawn_rows_top_n_exceeds_witness :
    drawnRows [recScreen] 5 = [recScreen] ∧
    (drawnRows [recScreen] 5).length = [recScreen].length ∧
    footerShownCount [recScreen] 5 = min 5 [recScreen].length ∧
    footerShownCount [recScreen] 5 = [recScreen].length :=
  drawn_rows_top_n_exceeds [recScreen] 5 (by norm_num) (by simp)

/-- C3 (counterexample): at terminal width 80 with the record
(pid 1, name "init", cpu 50, mem 25), the CPU bar field of a data row does
not begin at the same offset as in the header row (42 vs 41), and the CPU%
field does not occupy the same number of characters (7 vs 6, because the
data row appends a literal `%` after the formatted number), refuting the
claim that header and data columns match exactly. -/
theorem header_alignment_cex :
    ¬ (fieldOffset (headerFields (cpu_bar_w 80) (mem_bar_w 80)) 3
         = fieldOffset (rowFields (cpu_bar_w 80) (mem_bar_w 80) recScreen) 3
       ∧ fieldWidth (headerFields (cpu_bar_w 80) (mem_bar_w 80)) 2
         = fieldWidth (rowFields (cpu_bar_w 80) (mem_bar_w 80) recScreen) 2) := by
  have hf1 := recScreen_cpu_fmt
  have hf2 := recScreen_mem_fmt
  have hH := headerFields_lengths (cpu_bar_w_ge 80) (mem_bar_w_ge 80)
  have hR := rowFields_lengths recScreen (cpu_bar_w_ge 80) (mem_bar_w_ge 80) hf1 hf2
  intro hcontra
  obtain ⟨hoff, -⟩ := hcontra
  rw [fieldOffset_eq, fieldOffset_eq, hH, hR] at hoff
  simp at hoff

/-- C3 (amended): the PID and NAME columns of the header and of every data
row coincide in offset and width.  The CPU% column starts at the same
offset in both, but occupies 6 characters in the header and 7 in a data
row (the trailing literal `%`); consequently the CPU bar starts one
character later in a data row than in the header and is two characters
narrower (`cpu_bar_w` vs `cpu_bar_w + 2`), the MEM% column starts one
character earlier in a data row and is one character wider, and the MEM
bar starts at the same offset in both but is two characters narrower in a
data row (`mem_bar_w` vs `mem_bar_w + 2`).  Stated for any record whose
two formatted percentages are at most 6 characters. -/
theorem header_alignment_amended (tw : ℤ) (p : ProcRecord)
    (h1 : (formatFixed1 p.cpu).length ≤ 6) (h2 : (formatFixed1 p.mem).length ≤ 6) :
    ((headerFields (cpu_bar_w tw) (mem_bar_w tw)).map List.length
        = [6, 26, 6, (cpu_bar_w tw + 2).toNat, 6, (mem_bar_w tw + 2).toNat]) ∧
    ((rowFields (cpu_bar_w tw) (mem_bar_w tw) p).map List.length
        = [6, 26, 7, (cpu_bar_w tw).toNat, 7, (mem_bar_w tw).toNat]) ∧
    (∀ i, i ≤ 2 →
        fieldOffset (headerFields (cpu_bar_w tw) (mem_bar_w tw)) i
          = fieldOffset (rowFields (cpu_bar_w tw) (mem_bar_w tw) p) i) ∧
    (fieldOffset (headerFields (cpu_bar_w tw) (mem_bar_w tw)) 3 + 1
        = fieldOffset (rowFields (cpu_bar_w tw) (mem_bar_w tw) p) 3) ∧
    (fieldOffset (headerFields (cpu_bar_w tw) (mem_bar_w tw)) 4
        = fieldOffset (rowFields (cpu_bar_w tw) (mem_bar_w tw) p) 4 + 1) ∧
    (fieldOffset (headerFields (cpu_bar_w tw) (mem_bar_w tw)) 5
        = fieldOffset (rowFields (cpu_bar_w tw) (mem_bar_w tw) p) 5) := by
  have hc := cpu_bar_w_ge tw
  have hm := mem_bar_w_ge tw
  have hH := headerFields_lengths hc hm
  have hR := rowFields_lengths p hc hm h1 h2
  refine ⟨hH, hR, ?_, ?_, ?_, ?_⟩
  · intro i hi
    interval_cases i <;>
      (rw [fieldOffset_eq, fieldOffset_eq, hH, hR]; rfl)
  · rw [fieldOffset_eq, fieldOffset_eq, hH, hR]
    rfl
  · rw [fieldOffset_eq, fieldOffset_eq, hH, hR]
    simp
    omega
  · rw [fieldOffset_eq, fieldOffset_eq, hH, hR]
    simp
    omega

theorem header_alignment_amended_witness :
    fieldOffset (headerFields (cpu_bar_w 80) (mem_bar_w 80)) 3 + 1
      = fieldOffset (rowFields (cpu_bar_w 80) (mem_bar_w 80) recScreen) 3 :=
  (header_alignment_amended 80 recScreen recScreen_cpu_fmt recScreen_mem_fmt).2.2.2.1

/-- C6: for every value in [0,100] and width ≥ 1, `proportion_bar` returns a
string of exactly `width + 2` characters (bar cells plus the two brackets),
and for a fixed width the count of filled `#` cells is monotone
non-decreasing in the value. -/
theorem proportion_bar_len_mono (v1 v2 : ℚ) (w : ℤ)
    (h1 : 0 ≤ v1) (h2 : v1 ≤ 100) (h3 : 0 ≤ v2) (h4 : v2 ≤ 100)
    (hw : 1 ≤ w) (h12 : v1 ≤ v2) :
    (proportion_bar v1 w).length = w.toNat + 2 ∧
    (proportion_bar v1 w).count '#' ≤ (proportion_bar v2 w).count '#' := by
  have hw0 : (0:ℤ) ≤ w := by omega
  refine ⟨proportion_bar_length v1 hw0, ?_⟩
  rw [proportion_bar_count, proportion_bar_count]
  exact Int.toNat_le_toNat (filledCells_mono w hw0 h12)

theorem proportion_bar_len_mono_witness :
    (proportion_bar 0 10).length = (10:ℤ).toNat + 2 ∧
    (proportion_bar 0 10).count '#' ≤ (proportion_bar 100 10).count '#' :=
  proportion_bar_len_mono 0 100 10 (by norm_num) (by norm_num) (by norm_num)
    (by norm_num) (by norm_num) (by norm_num)

/-- C7: `proportion_bar` clamps its value to [0,100] before computing the
fill (so the bar of `v` equals the bar of the clamped value), the count of
filled `#` cells equals `filledCells v w`, i.e. `round(clamped_v/100 * w)`
with Python's round-half-to-even; `proportion_bar 0 w` has zero filled
cells and `proportion_bar v w` for any `v ≥ 100` has exactly `w` filled
cells. -/
theorem proportion_bar_fill (v : ℚ) (w : ℤ) (hw : 1 ≤ w) :
    proportion_bar v w = proportion_bar (clamp v 0 100) w ∧
    (proportion_bar v w).count '#' = (filledCells v w).toNat ∧
    (proportion_bar 0 w).count '#' = 0 ∧
    (100 ≤ v → (proportion_bar v w).count '#' = w.toNat) := by
  refine ⟨?_, proportion_bar_count v w, ?_, ?_⟩
  · simp only [proportion_bar]
    rw [clamp_clamp]
  · rw [proportion_bar_count, filledCells_zero]
    rfl
  · intro h
    rw [proportion_bar_count, filledCells_full w h]

theorem proportion_bar_fill_witness :
    (proportion_bar (100 : ℚ) 10).count '#' = (10 : ℤ).toNat ∧
    (proportion_bar (0 : ℚ) 10).count '#' = 0 :=
  ⟨(proportion_bar_fill 100 10 (by norm_num)).2.2.2 (by norm_num),
   (proportion_bar_fill 100 10 (by norm_num)).2.2.1⟩

/-- C10: for every terminal width ≥ 64 and record whose two formatted
percentages take at most 6 characters, each data row printed by `draw` is
exactly `terminal_width - 3` characters long (so it never exceeds the
terminal width), and each rendered bar string occupies exactly `cpu_bar_w`
(resp. `mem_bar_w`) characters including its brackets, because `draw`
invokes `proportion_bar` with width `cpu_bar_w - 2` (resp. `mem_bar_w - 2`). -/
theorem row_line_width (tw : ℤ) (p : ProcRecord) (htw : 64 ≤ tw)
    (h1 : (formatFixed1 p.cpu).length ≤ 6) (h2 : (formatFixed1 p.mem).length ≤ 6) :
    ((rowLine tw p).length : ℤ) = tw - 3 ∧
    (proportion_bar p.cpu (cpu_bar_w tw - 2)).length = (cpu_bar_w tw).toNat ∧
    (proportion_bar p.mem (mem_bar_w tw - 2)).length = (mem_bar_w tw).toNat := by
  have hc := cpu_bar_w_ge tw
  have hm := mem_bar_w_ge tw
  have hsum : cpu_bar_w tw + mem_bar_w tw = tw - 54 := by
    rw [bar_w_sum, bar_space_eq_of_wide htw]
  refine ⟨?_, row_bar_length p.cpu hc, row_bar_length p.mem hm⟩
  simp only [rowLine, rowFields, joinFields_length_six, row_f0_length, row_f1_length,
    row_cpu_pct_length h1, row_mem_pct_length h2, row_bar_length p.cpu hc,
    row_bar_length p.mem hm]
  push_cast
  omega

theorem row_line_width_witness :
    ((rowLine 80 recScreen).length : ℤ) = 80 - 3 :=
  (row_line_width 80 recScreen (by norm_num) recScreen_cpu_fmt recScreen_mem_fmt).1
